import Mathlib

/-!
Verification of the `blamejules` Pixelflut client core (src/lib.rs, src/main.rs):
the command protocol encoding/decoding, the connection send path, the pooled
fan-out dispatch strategy and the painter's chunking, shallowly embedded in Lean.
-/

namespace Blamejules

/-! ## Decimal and hexadecimal digits

Rust's `format!("{}", n)` for a `u32` renders standard decimal digits;
`format!("{:02x}", b)` renders two zero-padded lowercase hex digits.
-/

/-- The character for a decimal digit value `d < 10` (ASCII `0`..`9`). -/
def digitChar (d : Nat) : Char := Char.ofNat (48 + d)

/-- The character for a lowercase hexadecimal digit value `d < 16`
(ASCII `0`..`9`, `a`..`f`), as produced by Rust's `{:x}` formatting. -/
def hexChar (d : Nat) : Char :=
  if d < 10 then Char.ofNat (48 + d) else Char.ofNat (87 + d)

/-- Value of a decimal digit character, `none` for non-digits. -/
def charDigit (c : Char) : Option Nat :=
  if 48 ≤ c.toNat ∧ c.toNat ≤ 57 then some (c.toNat - 48) else none

/-- Value of a lowercase hexadecimal digit character, `none` otherwise.
Uppercase digits are rejected: the reference decoder demands the exact
lowercase form the encoder emits. -/
def charHexDigit (c : Char) : Option Nat :=
  if 48 ≤ c.toNat ∧ c.toNat ≤ 57 then some (c.toNat - 48)
  else if 97 ≤ c.toNat ∧ c.toNat ≤ 102 then some (c.toNat - 87)
  else none

theorem charDigit_digitChar {d : Nat} (hd : d < 10) :
    charDigit (digitChar d) = some d := by
  interval_cases d <;> decide

theorem charHexDigit_hexChar {d : Nat} (hd : d < 16) :
    charHexDigit (hexChar d) = some d := by
  interval_cases d <;> decide

theorem digitChar_ne_space {d : Nat} (hd : d < 10) : digitChar d ≠ ' ' := by
  interval_cases d <;> decide

theorem digitChar_ne_newline {d : Nat} (hd : d < 10) : digitChar d ≠ '\n' := by
  interval_cases d <;> decide

theorem hexChar_ne_space {d : Nat} (hd : d < 16) : hexChar d ≠ ' ' := by
  interval_cases d <;> decide

theorem hexChar_ne_newline {d : Nat} (hd : d < 16) : hexChar d ≠ '\n' := by
  interval_cases d <;> decide

/-! ## Decimal rendering of a natural number, as Rust `Display` for `u32` -/

/-- Fuelled worker for `natRepr`: peels decimal digits from the low end.
The fuel argument only forces structural termination; `natRepr` always
supplies enough fuel. -/
def natReprGo : Nat → Nat → List Char → List Char
  | 0, _, acc => acc
  | fuel + 1, n, acc =>
    if n < 10 then digitChar n :: acc
    else natReprGo fuel (n / 10) (digitChar (n % 10) :: acc)

/-- Decimal digit string of `n`, most significant digit first: the text
Rust's `format!("{}", n)` produces for a `u32`. -/
def natRepr (n : Nat) : List Char := natReprGo (n + 1) n []

theorem natReprGo_append (n : Nat) :
    ∀ fuel acc, n < fuel → natReprGo fuel n acc = natRepr n ++ acc := by
  induction n using Nat.strong_induction_on with
  | _ n ih =>
    intro fuel acc hfuel
    match fuel with
    | 0 => omega
    | f + 1 =>
      by_cases h : n < 10
      · simp [natReprGo, natRepr, h]
      · have h2 : n / 10 < n := Nat.div_lt_self (by omega) (by omega)
        rw [natReprGo, if_neg h, ih (n / 10) h2 f _ (by omega)]
        have e2 : natRepr n = natRepr (n / 10) ++ [digitChar (n % 10)] := by
          rw [natRepr, natReprGo, if_neg h, ih (n / 10) h2 n _ (by omega)]
        rw [e2]
        simp

theorem natRepr_of_lt {n : Nat} (h : n < 10) : natRepr n = [digitChar n] := by
  simp [natRepr, natReprGo, h]

theorem natRepr_of_ge {n : Nat} (h : ¬ n < 10) :
    natRepr n = natRepr (n / 10) ++ [digitChar (n % 10)] := by
  rw [natRepr, natReprGo, if_neg h,
    natReprGo_append (n / 10) n _ (by omega)]

theorem natRepr_ne_nil (n : Nat) : natRepr n ≠ [] := by
  by_cases h : n < 10
  · simp [natRepr_of_lt h]
  · simp [natRepr_of_ge h]

theorem mem_natRepr_isDigit {n : Nat} {c : Char} (hc : c ∈ natRepr n) :
    ∃ d, d < 10 ∧ c = digitChar d := by
  induction n using Nat.strong_induction_on with
  | _ n ih =>
    by_cases h : n < 10
    · rw [natRepr_of_lt h] at hc
      exact ⟨n, h, (List.mem_singleton.mp hc)⟩
    · rw [natRepr_of_ge h] at hc
      rcases List.mem_append.mp hc with h1 | h2
      · exact ih (n / 10) (Nat.div_lt_self (by omega) (by omega)) h1
      · exact ⟨n % 10, Nat.mod_lt _ (by omega), List.mem_singleton.mp h2⟩

theorem natRepr_no_space {n : Nat} {c : Char} (hc : c ∈ natRepr n) : c ≠ ' ' := by
  obtain ⟨d, hd, rfl⟩ := mem_natRepr_isDigit hc
  exact digitChar_ne_space hd

theorem natRepr_no_newline {n : Nat} {c : Char} (hc : c ∈ natRepr n) : c ≠ '\n' := by
  obtain ⟨d, hd, rfl⟩ := mem_natRepr_isDigit hc
  exact digitChar_ne_newline hd

/-! ## Parsing decimal digit strings (the reference decoder's number parser) -/

/-- Fold decimal digit characters onto an accumulator; `none` on a non-digit. -/
def parseDecCore (cs : List Char) (acc : Nat) : Option Nat :=
  match cs with
  | [] => some acc
  | c :: rest =>
    match charDigit c with
    | some d => parseDecCore rest (10 * acc + d)
    | none => none

/-- Parse a non-empty all-decimal-digit string to its value. -/
def parseDec (cs : List Char) : Option Nat :=
  match cs with
  | [] => none
  | _ => parseDecCore cs 0

theorem parseDecCore_append (xs ys : List Char) (a : Nat) :
    parseDecCore (xs ++ ys) a =
      match parseDecCore xs a with
      | some b => parseDecCore ys b
      | none => none := by
  induction xs generalizing a with
  | nil => simp [parseDecCore]
  | cons c rest ih =>
    simp only [List.cons_append, parseDecCore]
    cases charDigit c with
    | none => rfl
    | some d => exact ih (10 * a + d)

theorem parseDecCore_natRepr (n : Nat) :
    ∀ a : Nat, parseDecCore (natRepr n) a = some (a * 10 ^ (natRepr n).length + n) := by
  induction n using Nat.strong_induction_on with
  | _ n ih =>
    intro a
    by_cases h : n < 10
    · rw [natRepr_of_lt h]
      simp only [parseDecCore, charDigit_digitChar h, List.length_singleton, pow_one,
        Option.some.injEq]
      ring
    · rw [natRepr_of_ge h, parseDecCore_append,
        ih (n / 10) (Nat.div_lt_self (by omega) (by omega)) a]
      simp only [parseDecCore, charDigit_digitChar (Nat.mod_lt n (by omega)),
        List.length_append, List.length_singleton, Option.some.injEq]
      rw [pow_succ, ← mul_assoc]
      generalize a * 10 ^ (natRepr (n / 10)).length = K
      omega

theorem parseDec_natRepr (n : Nat) : parseDec (natRepr n) = some n := by
  have hne := natRepr_ne_nil n
  cases hr : natRepr n with
  | nil => exact absurd hr hne
  | cons c rest =>
    have hcore := parseDecCore_natRepr n 0
    rw [hr] at hcore
    simpa [parseDec] using hcore

/-! ## Data model (src/lib.rs)

`Vec2` is a 2D vector of `u32` coordinates, `Rgb` a 24-bit color, `Cmd` a
Pixelflut command. Machine integers are embedded as `Nat`; `u32`/`u8` range
hypotheses are stated where they matter.
-/

/-- A 2D vector (`struct Vec2(u32, u32)`). -/
structure Vec2 where
  x : Nat
  y : Nat
deriving DecidableEq, Repr

/-- A 24-bit RGB color (`struct Rgb(u8, u8, u8)`). -/
structure Rgb where
  r : Nat
  g : Nat
  b : Nat
deriving DecidableEq, Repr

/-- A Pixelflut command (`enum Cmd`). -/
inductive Cmd where
  | Help
  | Size
  | SetPx (coordinate : Vec2) (rgb : Rgb)
  | GetPx (coordinate : Vec2)
deriving DecidableEq, Repr

/-- Two zero-padded lowercase hex digits of a byte: Rust's `{:02x}` for `u8`. -/
def hex2 (v : Nat) : List Char := [hexChar (v / 16), hexChar (v % 16)]

/-- Wire text of a command, embedding `impl ToString for Cmd`:
`HELP`, `SIZE`, `PX x y rrggbb` (via `format!("PX {} {} {:02x}{:02x}{:02x}", ..)`)
and `PX x y` (via `format!("PX {} {}", ..)`). -/
def Cmd.toString : Cmd → String
  | .Help => "HELP"
  | .Size => "SIZE"
  | .SetPx coordinate rgb =>
    String.mk ("PX ".data ++ natRepr coordinate.x ++ [' '] ++ natRepr coordinate.y
      ++ [' '] ++ hex2 rgb.r ++ hex2 rgb.g ++ hex2 rgb.b)
  | .GetPx coordinate =>
    String.mk ("PX ".data ++ natRepr coordinate.x ++ [' '] ++ natRepr coordinate.y)

/-! ## A reference decoder for `PX` lines

Splits the wire text on single space characters and parses the numeric
fields back; colors must be exactly six lowercase hex digits.
-/

/-- Split a character list on `' '` (every occurrence separates fields). -/
def splitSp : List Char → List (List Char)
  | [] => [[]]
  | c :: rest =>
    if c = ' ' then [] :: splitSp rest
    else (splitSp rest).modifyHead (fun t => c :: t)

theorem splitSp_ne_nil (cs : List Char) : splitSp cs ≠ [] := by
  induction cs with
  | nil => simp [splitSp]
  | cons c rest ih =>
    by_cases h : c = ' '
    · simp [splitSp, h]
    · simp only [splitSp, if_neg h]
      cases hr : splitSp rest with
      | nil => exact absurd hr ih
      | cons t ts => simp [List.modifyHead]

theorem splitSp_nospace_append {xs : List Char} (ys : List Char)
    (hxs : ∀ c ∈ xs, c ≠ ' ') :
    splitSp (xs ++ ys) = (splitSp ys).modifyHead (fun t => xs ++ t) := by
  induction xs with
  | nil =>
    cases hy : splitSp ys with
    | nil => exact absurd hy (splitSp_ne_nil ys)
    | cons t ts => simp [hy, List.modifyHead]
  | cons c rest ih =>
    have hc : c ≠ ' ' := hxs c (by simp)
    have hrest : ∀ d ∈ rest, d ≠ ' ' := fun d hd => hxs d (by simp [hd])
    cases hy : splitSp ys with
    | nil => exact absurd hy (splitSp_ne_nil ys)
    | cons t ts =>
      simp [List.cons_append, splitSp, if_neg hc, ih hrest, hy, List.modifyHead]

theorem splitSp_token_cons {xs : List Char} (ys : List Char)
    (hxs : ∀ c ∈ xs, c ≠ ' ') :
    splitSp (xs ++ ' ' :: ys) = xs :: splitSp ys := by
  rw [splitSp_nospace_append _ hxs]
  have : splitSp (' ' :: ys) = [] :: splitSp ys := by simp [splitSp]
  rw [this]
  simp [List.modifyHead]

theorem splitSp_nospace {xs : List Char} (hxs : ∀ c ∈ xs, c ≠ ' ') :
    splitSp xs = [xs] := by
  have := @splitSp_nospace_append xs [] hxs
  simpa [splitSp, List.modifyHead] using this

/-- Value of two hex digit characters as one byte. -/
def hexByte (hi lo : Char) : Option Nat :=
  match charHexDigit hi, charHexDigit lo with
  | some d1, some d2 => some (16 * d1 + d2)
  | _, _ => none

/-- Field-level part of the reference decoder: expects exactly the four
fields `PX`, a decimal `x`, a decimal `y`, and exactly six lowercase hex
digit characters for the color. -/
def decodeTokens : List (List Char) → Option (Nat × Nat × Nat × Nat × Nat)
  | [px, xs, ys, cs] =>
    if px = "PX".data then
      match parseDec xs, parseDec ys, cs with
      | some x, some y, [c1, c2, c3, c4, c5, c6] =>
        match hexByte c1 c2, hexByte c3 c4, hexByte c5 c6 with
        | some r, some g, some b => some (x, y, r, g, b)
        | _, _, _ => none
      | _, _, _ => none
    else none
  | _ => none

/-- Reference decoder for a `PX x y rrggbb` line: recovers the coordinates and
the three color channels. Accepts only the exact wire shape. -/
def decodePx (s : String) : Option (Nat × Nat × Nat × Nat × Nat) :=
  decodeTokens (splitSp s.data)

theorem hexByte_hex2 {v : Nat} (hv : v < 256) :
    hexByte (hexChar (v / 16)) (hexChar (v % 16)) = some v := by
  have h1 : v / 16 < 16 := by omega
  have h2 : v % 16 < 16 := Nat.mod_lt _ (by omega)
  rw [hexByte, charHexDigit_hexChar h1, charHexDigit_hexChar h2]
  have := Nat.div_add_mod v 16
  simp only [Option.some.injEq]
  omega

theorem hex2_no_space {v : Nat} (hv : v < 256) : ∀ c ∈ hex2 v, c ≠ ' ' := by
  intro c hc
  have h1 : v / 16 < 16 := by omega
  have h2 : v % 16 < 16 := Nat.mod_lt _ (by omega)
  rcases List.mem_pair.mp hc with rfl | rfl
  · exact hexChar_ne_space h1
  · exact hexChar_ne_space h2

theorem splitSp_setPx (x y r g b : Nat) (hr : r < 256) (hg : g < 256) (hb : b < 256) :
    splitSp ((Cmd.toString (.SetPx ⟨x, y⟩ ⟨r, g, b⟩)).data)
      = ["PX".data, natRepr x, natRepr y, hex2 r ++ hex2 g ++ hex2 b] := by
  have hpx : ∀ c ∈ ("PX".data : List Char), c ≠ ' ' := by decide
  have hcolor : ∀ c ∈ hex2 r ++ hex2 g ++ hex2 b, c ≠ ' ' := by
    intro c hc
    rcases List.mem_append.mp hc with h1 | h2
    · rcases List.mem_append.mp h1 with h3 | h4
      · exact hex2_no_space hr c h3
      · exact hex2_no_space hg c h4
    · exact hex2_no_space hb c h2
  show splitSp ("PX ".data ++ natRepr x ++ [' '] ++ natRepr y
      ++ [' '] ++ hex2 r ++ hex2 g ++ hex2 b) = _
  have hshape : "PX ".data ++ natRepr x ++ [' '] ++ natRepr y
      ++ [' '] ++ hex2 r ++ hex2 g ++ hex2 b
      = "PX".data ++ ' ' :: (natRepr x ++ ' ' ::
          (natRepr y ++ ' ' :: (hex2 r ++ hex2 g ++ hex2 b))) := by
    simp
  rw [hshape, splitSp_token_cons _ hpx,
    splitSp_token_cons _ (fun c hc => natRepr_no_space hc),
    splitSp_token_cons _ (fun c hc => natRepr_no_space hc),
    splitSp_nospace hcolor]

theorem splitSp_getPx (x y : Nat) :
    splitSp ((Cmd.toString (.GetPx ⟨x, y⟩)).data) = ["PX".data, natRepr x, natRepr y] := by
  have hpx : ∀ c ∈ ("PX".data : List Char), c ≠ ' ' := by decide
  show splitSp ("PX ".data ++ natRepr x ++ [' '] ++ natRepr y) = _
  have hshape : "PX ".data ++ natRepr x ++ [' '] ++ natRepr y
      = "PX".data ++ ' ' :: (natRepr x ++ ' ' :: natRepr y) := by simp
  rw [hshape, splitSp_token_cons _ hpx,
    splitSp_token_cons _ (fun c hc => natRepr_no_space hc),
    splitSp_nospace (fun c hc => natRepr_no_space hc)]

theorem decodePx_setPx {x y r g b : Nat} (hr : r < 256) (hg : g < 256) (hb : b < 256) :
    decodePx (Cmd.toString (.SetPx ⟨x, y⟩ ⟨r, g, b⟩)) = some (x, y, r, g, b) := by
  show decodeTokens (splitSp (Cmd.toString (.SetPx ⟨x, y⟩ ⟨r, g, b⟩)).data) = _
  rw [splitSp_setPx x y r g b hr hg hb]
  show decodeTokens ["PX".data, natRepr x, natRepr y,
    [hexChar (r / 16), hexChar (r % 16), hexChar (g / 16), hexChar (g % 16),
      hexChar (b / 16), hexChar (b % 16)]] = _
  simp [decodeTokens, parseDec_natRepr, hexByte_hex2 hr, hexByte_hex2 hg, hexByte_hex2 hb,
    hexByte_hex2]

/-- C1: the wire table of `impl ToString for Cmd` is exact: `Help` encodes to
`HELP`, `Size` to `SIZE`, `GetPx` to `PX x y` (the split fields are the
literal `PX` token and the two decimal coordinates, recovered by the
reference number parser), and `SetPx` to `PX x y rrggbb` with two lowercase
zero-padded hex digits per channel; the reference decoder recovers
`x, y, r, g, b` exactly, e.g. `(0,0,(1,2,255))` encodes to `PX 0 0 0102ff`. -/
theorem c1_cmd_encoding_roundtrip :
    Cmd.toString .Help = "HELP" ∧
    Cmd.toString .Size = "SIZE" ∧
    Cmd.toString (.SetPx ⟨0, 0⟩ ⟨1, 2, 255⟩) = "PX 0 0 0102ff" ∧
    (∀ x y : Nat, x < 2 ^ 32 → y < 2 ^ 32 →
      splitSp ((Cmd.toString (.GetPx ⟨x, y⟩)).data) = ["PX".data, natRepr x, natRepr y] ∧
      parseDec (natRepr x) = some x ∧ parseDec (natRepr y) = some y) ∧
    (∀ x y r g b : Nat, x < 2 ^ 32 → y < 2 ^ 32 → r < 256 → g < 256 → b < 256 →
      decodePx (Cmd.toString (.SetPx ⟨x, y⟩ ⟨r, g, b⟩)) = some (x, y, r, g, b)) := by
  refine ⟨by decide, by decide, by decide, ?_, ?_⟩
  · intro x y _ _
    exact ⟨splitSp_getPx x y, parseDec_natRepr x, parseDec_natRepr y⟩
  · intro x y r g b _ _ hr hg hb
    exact decodePx_setPx hr hg hb

/-- Witness for C1: the round-trip instantiated at `(0,0)` and `(1,2,255)`. -/
theorem c1_cmd_encoding_roundtrip_witness :
    decodePx (Cmd.toString (.SetPx ⟨0, 0⟩ ⟨1, 2, 255⟩)) = some (0, 0, 1, 2, 255) :=
  c1_cmd_encoding_roundtrip.2.2.2.2 0 0 1 2 255 (by norm_num) (by norm_num)
    (by norm_num) (by norm_num) (by norm_num)

/-! ## `Sock::query_size` response decoding (src/lib.rs lines 96-111)

The code runs `size_response.trim_end().splitn(3, ' ').skip(1)` and then
parses two `u32` fields, failing with a `ProtocolError` when a field is
missing or unparseable.
-/

/-- Whitespace characters stripped by Rust's `str::trim_end` (the ASCII
range; the protocol lines are ASCII). -/
def rustWhitespace (c : Char) : Bool :=
  c = ' ' || c = '\t' || c = '\n' || c = '\r' || c.toNat = 11 || c.toNat = 12

/-- Rust `str::trim_end`: drop trailing whitespace. -/
def trimEnd (cs : List Char) : List Char :=
  (cs.reverse.dropWhile rustWhitespace).reverse

/-- Rust `str::splitn(n, ' ')`: split on single space characters into at
most `n` fields; the final field keeps the remainder verbatim. -/
def splitnSp : Nat → List Char → List (List Char)
  | 0, _ => []
  | 1, cs => [cs]
  | n + 2, cs =>
    match cs.dropWhile (fun c => c != ' ') with
    | [] => [cs]
    | _ :: tail => cs.takeWhile (fun c => c != ' ') :: splitnSp (n + 1) tail

/-- Rust `u32::from_str`: an optional leading `+`, then one or more ASCII
decimal digits, with the value below `2^32`; anything else fails. -/
def parseU32 (cs : List Char) : Option Nat :=
  let digits :=
    match cs with
    | '+' :: rest => rest
    | _ => cs
  match parseDec digits with
  | some v => if v < 2 ^ 32 then some v else none
  | none => none

/-- Failures of the `SIZE`-response decoding in `Sock::query_size`; each is
surfaced as a `ProtocolError` through `anyhow`. -/
inductive SizeError where
  | noWidth
  | noHeight
  | badInt
deriving DecidableEq, Repr

/-- Consume the fields remaining after `skip(1)`: the first missing field is
"no width", the second "no height"; a field that fails `u32` parsing is a
parse error. Mirrors the two `split.next().ok_or(..)?.parse()?` steps. -/
def sizeFromFields : List (List Char) → Except SizeError Vec2
  | [] => .error .noWidth
  | [w] =>
    match parseU32 w with
    | none => .error .badInt
    | some _ => .error .noHeight
  | w :: h :: _ =>
    match parseU32 w with
    | none => .error .badInt
    | some width =>
      match parseU32 h with
      | none => .error .badInt
      | some height => .ok ⟨width, height⟩

/-- The pure decoding step of `Sock::query_size`: trim the response line,
split on single spaces into at most three fields, skip the leading token,
then demand a `u32` width and a `u32` height in that order. -/
def querySizeDecode (line : String) : Except SizeError Vec2 :=
  sizeFromFields ((splitnSp 3 (trimEnd line.data)).drop 1)

/-- C2: the SIZE-response decoder skips one leading token and requires two
further integer fields: `"SIZE 800 600\n"` decodes to `(800, 600)`;
`"SIZE 800\n"` and `"SIZE abc 600\n"` fail with a protocol error; and in
general any line with fewer than two fields after the leading token, or
with an examined field that fails `u32` parsing, fails with a protocol
error. -/
theorem c2_query_size_decoding :
    querySizeDecode "SIZE 800 600\n" = .ok ⟨800, 600⟩ ∧
    querySizeDecode "SIZE 800\n" = .error .noHeight ∧
    querySizeDecode "SIZE abc 600\n" = .error .badInt ∧
    (∀ s : String, ((splitnSp 3 (trimEnd s.data)).drop 1).length < 2 →
      ∃ e, querySizeDecode s = .error e) ∧
    (∀ s : String, ∀ t ∈ ((splitnSp 3 (trimEnd s.data)).drop 1).take 2,
      parseU32 t = none → ∃ e, querySizeDecode s = .error e) := by
  refine ⟨rfl, rfl, rfl, ?_, ?_⟩
  · intro s hlen
    show ∃ e, sizeFromFields ((splitnSp 3 (trimEnd s.data)).drop 1) = .error e
    rcases hf : (splitnSp 3 (trimEnd s.data)).drop 1 with _ | ⟨w, _ | ⟨h, rest⟩⟩
    · exact ⟨.noWidth, rfl⟩
    · rcases hp : parseU32 w with _ | v
      · exact ⟨.badInt, by simp [sizeFromFields, hp]⟩
      · exact ⟨.noHeight, by simp [sizeFromFields, hp]⟩
    · rw [hf] at hlen
      exact absurd hlen (by simp)
  · intro s t ht hbad
    show ∃ e, sizeFromFields ((splitnSp 3 (trimEnd s.data)).drop 1) = .error e
    rcases hf : (splitnSp 3 (trimEnd s.data)).drop 1 with _ | ⟨w, _ | ⟨h, rest⟩⟩
    · exact ⟨.noWidth, rfl⟩
    · rw [hf] at ht
      simp at ht
      subst ht
      exact ⟨.badInt, by simp [sizeFromFields, hbad]⟩
    · rw [hf] at ht
      simp at ht
      rcases ht with rfl | rfl
      · exact ⟨.badInt, by simp [sizeFromFields, hbad]⟩
      · rcases hp : parseU32 w with _ | v
        · exact ⟨.badInt, by simp [sizeFromFields, hp]⟩
        · exact ⟨.badInt, by simp [sizeFromFields, hp, hbad]⟩

/-- Witness for C2: a line whose only token after the leading one is a
single field, so decoding must fail. -/
theorem c2_query_size_decoding_witness :
    ∃ e, querySizeDecode "SIZE 5\n" = .error e :=
  c2_query_size_decoding.2.2.2.1 "SIZE 5\n" (by decide)

/-! ## `Sock::send` (src/lib.rs lines 72-78)

`send` appends `cmd.to_string() + "\n"` with `write_all` on the buffered
stream, then `flush`es. The stream is embedded as the already-flushed wire
bytes plus the pending write-buffer bytes; faults of the two I/O steps are
injected as booleans.
-/

/-- Payload bounds of the Rust field types: `u32` coordinates and `u8`
color channels. -/
def Cmd.wf : Cmd → Bool
  | .Help => true
  | .Size => true
  | .SetPx v c =>
    decide (v.x < 2 ^ 32) && decide (v.y < 2 ^ 32)
      && decide (c.r < 256) && decide (c.g < 256) && decide (c.b < 256)
  | .GetPx v => decide (v.x < 2 ^ 32) && decide (v.y < 2 ^ 32)

theorem hex2_no_newline {v : Nat} (hv : v < 256) : '\n' ∉ hex2 v := by
  have h1 : v / 16 < 16 := by omega
  have h2 : v % 16 < 16 := Nat.mod_lt _ (by omega)
  intro hc
  rcases List.mem_pair.mp hc with h | h
  · exact hexChar_ne_newline h1 h.symm
  · exact hexChar_ne_newline h2 h.symm

/-- A well-formed command's wire text is newline-free: its encoding plus the
trailing `"\n"` is exactly one line. -/
theorem cmd_toString_no_newline {cmd : Cmd} (hw : Cmd.wf cmd = true) :
    '\n' ∉ (Cmd.toString cmd).data := by
  have hPX : '\n' ∉ ("PX ".data : List Char) := by decide
  have hsp : '\n' ∉ ([' '] : List Char) := by decide
  cases cmd with
  | Help => decide
  | Size => decide
  | SetPx v c =>
    simp only [Cmd.wf, Bool.and_eq_true, decide_eq_true_eq] at hw
    obtain ⟨⟨⟨⟨hx, hy⟩, hr⟩, hg⟩, hb⟩ := hw
    have hnx : '\n' ∉ natRepr v.x := fun h => natRepr_no_newline h rfl
    have hny : '\n' ∉ natRepr v.y := fun h => natRepr_no_newline h rfl
    show '\n' ∉ ("PX ".data ++ natRepr v.x ++ [' '] ++ natRepr v.y
      ++ [' '] ++ hex2 c.r ++ hex2 c.g ++ hex2 c.b)
    simp [List.mem_append, hPX, hsp, hnx, hny,
      hex2_no_newline hr, hex2_no_newline hg, hex2_no_newline hb]
  | GetPx v =>
    have hnx : '\n' ∉ natRepr v.x := fun h => natRepr_no_newline h rfl
    have hny : '\n' ∉ natRepr v.y := fun h => natRepr_no_newline h rfl
    show '\n' ∉ ("PX ".data ++ natRepr v.x ++ [' '] ++ natRepr v.y)
    simp [List.mem_append, hPX, hsp, hnx, hny]

/-- Buffered-writer state of a `Sock`: bytes already flushed onto the wire,
and bytes still pending in the write buffer. -/
structure WireState where
  flushed : List Char
  pending : List Char
deriving DecidableEq, Repr

/-- Fault injection for one `send` call: whether the underlying `write_all`
and `flush` succeed. -/
structure IoOk where
  writeOk : Bool
  flushOk : Bool
deriving DecidableEq, Repr

/-- The two I/O failure modes of `Sock::send`. -/
inductive IoError where
  | writeFailed
  | flushFailed
deriving DecidableEq, Repr

/-- Embedded `write_all` on the buffered stream: appends the bytes to the write
buffer, or fails. -/
def writeAll (ok : Bool) (st : WireState) (bytes : List Char) : Except IoError WireState :=
  if ok then .ok { st with pending := st.pending ++ bytes } else .error .writeFailed

/-- Embedded `flush`: moves every buffered byte onto the wire, or fails. -/
def flushSock (ok : Bool) (st : WireState) : Except IoError WireState :=
  if ok then .ok { flushed := st.flushed ++ st.pending, pending := [] }
  else .error .flushFailed

/-- Embedded `Sock::send`: encode `cmd.to_string() + "\n"`, `write_all` it (the `?`
propagates a write failure), then `flush` (likewise). -/
def sockSend (io : IoOk) (st : WireState) (cmd : Cmd) : Except IoError WireState :=
  match writeAll io.writeOk st ((Cmd.toString cmd).data ++ ['\n']) with
  | .error e => .error e
  | .ok st1 => flushSock io.flushOk st1

/-- Number of newline bytes in a byte sequence. -/
def countNewlines (cs : List Char) : Nat := cs.count '\n'

/-- C7: for every command, `Sock::send` writes the encoded line terminated
by a newline and then flushes: on success exactly one complete line (one
newline byte, at the end) is appended to the wire and no partial write is
left pending; it fails with an `IoError` exactly when the underlying write
or the flush fails. -/
theorem c7_sock_send_one_line (io : IoOk) (st : WireState) (cmd : Cmd)
    (hw : Cmd.wf cmd = true) (hp : st.pending = []) :
    (∀ st2, sockSend io st cmd = .ok st2 →
      st2.flushed = st.flushed ++ (Cmd.toString cmd).data ++ ['\n'] ∧
      st2.pending = [] ∧
      countNewlines ((Cmd.toString cmd).data ++ ['\n']) = 1) ∧
    ((∃ e, sockSend io st cmd = .error e) ↔ io.writeOk = false ∨ io.flushOk = false) := by
  have hcount : countNewlines ((Cmd.toString cmd).data ++ ['\n']) = 1 := by
    rw [countNewlines, List.count_append,
      List.count_eq_zero.mpr (cmd_toString_no_newline hw)]
    rfl
  obtain ⟨w, f⟩ := io
  cases w <;> cases f <;>
    simp [sockSend, writeAll, flushSock, hp, hcount]

/-- Witness for C7: a successful `HELP` send from an empty buffer puts the
single line `HELP\n` on the wire and leaves nothing pending. -/
theorem c7_sock_send_one_line_witness :
    ("HELP\n".data : List Char) = ([] : List Char) ++ "HELP".data ++ ['\n'] ∧
    ([] : List Char) = [] ∧
    countNewlines ("HELP".data ++ ['\n']) = 1 :=
  (c7_sock_send_one_line ⟨true, true⟩ ⟨[], []⟩ .Help rfl rfl).1
    ⟨"HELP\n".data, []⟩ rfl

/-! ## The pooled worker loop (src/lib.rs lines 81-93, `Sock::boot`)

`boot` spawns a task that repeatedly receives a command from its queue and
sends it; a failed send is logged to stderr and the loop continues. The
loop is embedded as a function over the sequence of commands the worker
receives, paired with whether each individual send succeeds.
-/

/-- One worker's whole run, over the sequence of commands it dequeues:
returns the commands it attempted to send, in order, and the commands whose
send failed and were logged. The loop never stops early and never retries. -/
def workerLoop : List (Cmd × Bool) → List Cmd × List Cmd
  | [] => ([], [])
  | (cmd, ok) :: rest =>
    let tail := workerLoop rest
    (cmd :: tail.1, if ok then tail.2 else cmd :: tail.2)

/-- C5: in the worker loop every received command is attempted exactly once
and in order, regardless of `IoError`s: every failed send is logged and the
loop continues with the next command, so a single failure never terminates
the worker and no command is retried. -/
theorem c5_worker_continues_after_error (msgs : List (Cmd × Bool)) :
    (workerLoop msgs).1 = msgs.map Prod.fst ∧
    (workerLoop msgs).2 = (msgs.filter (fun m => !m.2)).map Prod.fst := by
  induction msgs with
  | nil => exact ⟨rfl, rfl⟩
  | cons m rest ih =>
    obtain ⟨cmd, ok⟩ := m
    cases ok <;> simp [workerLoop, ih.1, ih.2, List.filter]

/-- Witness for C5: a worker that receives three commands of which the
second send fails still attempts all three in order and logs exactly the
failed one. -/
theorem c5_worker_continues_after_error_witness :
    (workerLoop [(.Help, true), (.Size, false), (.Help, true)]).1
        = [.Help, .Size, .Help] ∧
    (workerLoop [(.Help, true), (.Size, false), (.Help, true)]).2 = [.Size] := by
  have h := c5_worker_continues_after_error [(.Help, true), (.Size, false), (.Help, true)]
  simpa using h

/-! ## `Sender::connect` and the pooled fan-out (src/lib.rs lines 114-152)

`Sender::connect(addr, n_sender_socks)` asserts `n_sender_socks > 0`, then
runs `for _ in 0..=n_sender_socks { txs.push(Sock::connect(..).boot()) }`
(an inclusive range), and finally connects one more `Sock` kept on the
`sock` field for `query_size`. `pick_tx` chooses uniformly at random among
`txs`, and `Sender::send` pushes onto the chosen worker's bounded queue.
-/

/-- Model of the Rust inclusive range `0..=n`: the list of its values. -/
def rangeInclusive (n : Nat) : List Nat := List.range (n + 1)

/-- Outcome of a construction that may panic (Rust `assert!`). -/
inductive ConnectResult (α : Type) where
  | panicked (msg : String)
  | ok (value : α)

/-- A constructed pooled `Sender`, recording how it was built: one `txs`
entry per worker connection booted in the loop, plus the reserved `sock`
connected afterwards for the initial `query_size`. -/
structure SenderModel where
  txs : List Nat
  reservedSock : Nat

/-- Total number of `Sock::connect` calls a successful `Sender::connect`
performs: one per booted worker plus the reserved socket. -/
def SenderModel.totalConnections (s : SenderModel) : Nat := s.txs.length + 1

/-- Embedded `Sender::connect` for a requested pool size: the assertion
`assert!(n_sender_socks > 0, "you must spawn at least one socket")` runs
before any `Sock::connect`; then the `for _ in 0..=n_sender_socks` loop
boots one worker per range element, and the reserved socket is connected
last. -/
def senderConnect (nSenderSocks : Nat) : ConnectResult SenderModel :=
  if nSenderSocks > 0 then
    .ok { txs := rangeInclusive nSenderSocks, reservedSock := nSenderSocks + 1 }
  else .panicked "you must spawn at least one socket"

/-- Number of `Sock::connect` calls `Sender::connect` performs, mirroring
its control flow: the failed assertion panics before the loop opens any
connection. -/
def senderConnectAttempts (nSenderSocks : Nat) : Nat :=
  if nSenderSocks > 0 then (rangeInclusive nSenderSocks).length + 1 else 0

/-- C9: requesting a pooled `Sender` with pool size `0` does not produce an
error value: the assertion panics with the message
`you must spawn at least one socket` before any connection is opened. -/
theorem c9_zero_pool_size_panics :
    senderConnect 0 = .panicked "you must spawn at least one socket" ∧
    senderConnectAttempts 0 = 0 :=
  ⟨rfl, rfl⟩

/-- C3 (divergence witness): the claim says pool size `n` yields `n` worker
connections (or `n+1` counting the reserved one) with load balancing over
exactly `n` queues; the inclusive loop `0..=n_sender_socks` actually boots
`n + 1` workers, so `n + 2` connections in total are opened and `pick_tx`
balances over `n + 1` queues. At `n = 1` the code opens 3 connections and
balances across 2 queues, not 1. -/
theorem c3_pool_connection_count :
    (∀ n : Nat, 0 < n → ∃ m, senderConnect n = .ok m ∧
      m.txs.length = n + 1 ∧ m.totalConnections = n + 2) ∧
    (∃ m, senderConnect 1 = .ok m ∧ m.txs.length = 2 ∧
      m.totalConnections = 3 ∧ m.txs.length ≠ 1) := by
  constructor
  · intro n hn
    refine ⟨{ txs := rangeInclusive n, reservedSock := n + 1 }, ?_, ?_, ?_⟩
    · rw [senderConnect, if_pos hn]
    · simp [rangeInclusive]
    · simp [SenderModel.totalConnections, rangeInclusive]
  · exact ⟨{ txs := rangeInclusive 1, reservedSock := 2 }, rfl, rfl, rfl, by decide⟩

/-- Witness for C3's universal part, instantiated at `n = 1`. -/
theorem c3_pool_connection_count_witness :
    ∃ m, senderConnect 1 = .ok m ∧ m.txs.length = 1 + 1 ∧ m.totalConnections = 1 + 2 :=
  c3_pool_connection_count.1 1 (by norm_num)

/-! ## Bounded queues and backpressure (src/lib.rs line 82, `mpsc::channel(1024)`)

Each booted worker owns a bounded queue of capacity 1024. A submission to a
full queue suspends the submitting task. The queue fill levels are embedded
as one counter per worker; a blocked submission is `none`.
-/

/-- The bounded queue capacity `Sock::boot` passes to `mpsc::channel`. -/
def channelCapacity : Nat := 1024

/-- One `Sender::send` aimed at worker `i`: accepted when that queue is
below capacity, otherwise the submitting task suspends (`none`). -/
def trySubmit (cap : Nat) (queues : List Nat) (i : Nat) : Option (List Nat) :=
  match queues.get? i with
  | none => none
  | some q => if q < cap then some (queues.set i (q + 1)) else none

/-- Submit a sequence of picked workers in order, stopping at the first
suspension. -/
def submitAll (cap : Nat) (queues : List Nat) : List Nat → Option (List Nat)
  | [] => some queues
  | i :: rest =>
    match trySubmit cap queues i with
    | none => none
    | some qs => submitAll cap qs rest

theorem submitAll_append (cap : Nat) (queues : List Nat) (xs ys : List Nat) :
    submitAll cap queues (xs ++ ys) =
      match submitAll cap queues xs with
      | some qs => submitAll cap qs ys
      | none => none := by
  induction xs generalizing queues with
  | nil => simp [submitAll]
  | cons i rest ih =>
    simp only [List.cons_append, submitAll]
    cases trySubmit cap queues i with
    | none => rfl
    | some qs => exact ih qs

theorem submitAll_fill_left (cap : Nat) :
    ∀ (j : Nat) (a b : Nat), a + j ≤ cap →
      submitAll cap [a, b] (List.replicate j 0) = some [a + j, b] := by
  intro j
  induction j with
  | zero => intro a b _; simp [submitAll]
  | succ j ih =>
    intro a b hj
    rw [List.replicate_succ, submitAll]
    have ha : a < cap := by omega
    have hstep : trySubmit cap [a, b] 0 = some [a + 1, b] := by
      simp [trySubmit, List.get?, ha]
    rw [hstep]
    show submitAll cap [a + 1, b] (List.replicate j 0) = some [a + (j + 1), b]
    rw [ih (a + 1) b (by omega)]
    have harith : a + 1 + j = a + (j + 1) := by omega
    rw [harith]

theorem submitAll_fill_right (cap : Nat) :
    ∀ (j : Nat) (a b : Nat), b + j ≤ cap →
      submitAll cap [a, b] (List.replicate j 1) = some [a, b + j] := by
  intro j
  induction j with
  | zero => intro a b _; simp [submitAll]
  | succ j ih =>
    intro a b hj
    rw [List.replicate_succ, submitAll]
    have hb : b < cap := by omega
    have hstep : trySubmit cap [a, b] 1 = some [a, b + 1] := by
      simp [trySubmit, List.get?, hb]
    rw [hstep]
    show submitAll cap [a, b + 1] (List.replicate j 1) = some [a, b + (j + 1)]
    rw [ih a (b + 1) (by omega)]
    have harith : b + 1 + j = b + (j + 1) := by omega
    rw [harith]

/-- C6 (divergence witness): the claim bounds in-flight unsent commands by
`n × capacity` for requested pool size `n`. With `n = 1` the code boots two
workers (inclusive range), each with a 1024-slot queue: 2048 submissions
are all accepted with no worker dequeue and no suspension, so the in-flight
count reaches `2 × 1024 = 2048 > 1 × 1024`. -/
theorem c6_inflight_exceeds_claimed_bound :
    ∃ m, senderConnect 1 = .ok m ∧ m.txs.length = 2 ∧
      submitAll channelCapacity (List.replicate m.txs.length 0)
          (List.replicate channelCapacity 0 ++ List.replicate channelCapacity 1)
        = some [channelCapacity, channelCapacity] ∧
      1 * channelCapacity < channelCapacity + channelCapacity := by
  refine ⟨{ txs := rangeInclusive 1, reservedSock := 2 }, rfl, rfl, ?_,
    by norm_num [channelCapacity]⟩
  show submitAll channelCapacity [0, 0] _ = _
  rw [submitAll_append,
    submitAll_fill_left channelCapacity channelCapacity 0 0 (by norm_num)]
  show submitAll channelCapacity [0 + channelCapacity, 0] (List.replicate channelCapacity 1)
    = some [channelCapacity, channelCapacity]
  rw [submitAll_fill_right channelCapacity channelCapacity (0 + channelCapacity) 0 (by norm_num)]
  norm_num

/-! ## The painter's chunking (src/main.rs lines 84-113, `go`)

`go` computes `chunk_size = total_size / opt.chunks` (integer division;
`total_size = width * height` equals the resized pixel list's length) and
calls `pixels.chunks(chunk_size)`, starting one producer task per chunk.
Rust's `slice::chunks(size)` panics when `size == 0` and otherwise yields
contiguous chunks of `size` elements with a shorter final chunk.
-/

/-- A pixel to paint: coordinate and color. -/
abbrev Pixel := Vec2 × Rgb

/-- Fuelled worker for Rust `slice::chunks(size)`: the fuel only forces
structural termination and `rustChunks` always supplies enough. -/
def chunksGo {α : Type} (size : Nat) : Nat → List α → List (List α)
  | _, [] => []
  | 0, _ => []
  | fuel + 1, l => l.take size :: chunksGo size fuel (l.drop size)

/-- Rust `slice::chunks(size)`: `none` models the panic on `size == 0`. -/
def rustChunks {α : Type} (l : List α) (size : Nat) : Option (List (List α)) :=
  if size = 0 then none else some (chunksGo size l.length l)

theorem chunksGo_nil {α : Type} (size fuel : Nat) :
    chunksGo size fuel ([] : List α) = [] := by
  cases fuel <;> rfl

theorem chunksGo_flatten {α : Type} {size : Nat} (hs : 0 < size) :
    ∀ (fuel : Nat) (l : List α), l.length ≤ fuel →
      (chunksGo size fuel l).flatten = l := by
  intro fuel
  induction fuel with
  | zero =>
    intro l hl
    have hnil : l = [] := List.eq_nil_of_length_eq_zero (by omega)
    subst hnil
    simp [chunksGo_nil]
  | succ fuel ih =>
    intro l hl
    cases l with
    | nil => simp [chunksGo_nil]
    | cons a rest =>
      have hrec : ((a :: rest).drop size).length ≤ fuel := by
        rw [List.length_drop]
        simp only [List.length_cons] at hl ⊢
        omega
      simp only [chunksGo, List.flatten_cons, ih _ hrec, List.take_append_drop]

/-- Step identity for the ceiling-style chunk count. -/
theorem ceil_div_step {n s : Nat} (hs : 0 < s) (hn : 0 < n) :
    (n + s - 1) / s = (n - s + s - 1) / s + 1 := by
  by_cases h : n ≤ s
  · have h1 : n - s = 0 := by omega
    rw [h1]
    have h2 : (0 + s - 1) / s = 0 := Nat.div_eq_of_lt (by omega)
    rw [h2]
    exact Nat.div_eq_of_lt_le (by omega) (by omega)
  · have h3 : n + s - 1 = (n - s + s - 1) + s := by omega
    rw [h3, Nat.add_div_right _ hs]

theorem chunksGo_length {α : Type} {size : Nat} (hs : 0 < size) :
    ∀ (fuel : Nat) (l : List α), l.length ≤ fuel →
      (chunksGo size fuel l).length = (l.length + size - 1) / size := by
  intro fuel
  induction fuel with
  | zero =>
    intro l hl
    have hnil : l = [] := List.eq_nil_of_length_eq_zero (by omega)
    subst hnil
    simp [chunksGo_nil, Nat.div_eq_of_lt (show size - 1 < size by omega)]
  | succ fuel ih =>
    intro l hl
    cases l with
    | nil => simp [chunksGo_nil, Nat.div_eq_of_lt (show size - 1 < size by omega)]
    | cons a rest =>
      have hrec : ((a :: rest).drop size).length ≤ fuel := by
        rw [List.length_drop]
        simp only [List.length_cons] at hl ⊢
        omega
      simp only [chunksGo, List.length_cons, ih _ hrec, List.length_drop]
      rw [ceil_div_step hs (show 0 < rest.length + 1 by omega)]

theorem chunksGo_dropLast_length {α : Type} {size : Nat} (hs : 0 < size) :
    ∀ (fuel : Nat) (l : List α), l.length ≤ fuel →
      ∀ c ∈ (chunksGo size fuel l).dropLast, c.length = size := by
  intro fuel
  induction fuel with
  | zero =>
    intro l hl c hc
    have hnil : l = [] := List.eq_nil_of_length_eq_zero (by omega)
    subst hnil
    simp [chunksGo_nil] at hc
  | succ fuel ih =>
    intro l hl c hc
    cases l with
    | nil => simp [chunksGo_nil] at hc
    | cons a rest =>
      have hrec : ((a :: rest).drop size).length ≤ fuel := by
        rw [List.length_drop]
        simp only [List.length_cons] at hl ⊢
        omega
      simp only [chunksGo] at hc
      cases htail : chunksGo size fuel ((a :: rest).drop size) with
      | nil => rw [htail] at hc; simp at hc
      | cons c0 cs =>
        rw [htail, List.dropLast_cons_of_ne_nil (by simp)] at hc
        rcases List.mem_cons.mp hc with rfl | hc2
        · have hge : size ≤ (a :: rest).length := by
            by_contra hlt
            push_neg at hlt
            have hdrop : (a :: rest).drop size = [] :=
              List.drop_eq_nil_of_le (by omega)
            rw [hdrop, chunksGo_nil] at htail
            exact List.noConfusion htail
          rw [List.length_take]
          simp only [List.length_cons] at hge ⊢
          omega
        · have := ih _ hrec c
          rw [htail] at this
          exact this hc2

theorem chunksGo_mem_length {α : Type} {size : Nat} (hs : 0 < size) :
    ∀ (fuel : Nat) (l : List α), l.length ≤ fuel →
      ∀ c ∈ chunksGo size fuel l, c ≠ [] ∧ c.length ≤ size := by
  intro fuel
  induction fuel with
  | zero =>
    intro l hl c hc
    have hnil : l = [] := List.eq_nil_of_length_eq_zero (by omega)
    subst hnil
    simp [chunksGo_nil] at hc
  | succ fuel ih =>
    intro l hl c hc
    cases l with
    | nil => simp [chunksGo_nil] at hc
    | cons a rest =>
      have hrec : ((a :: rest).drop size).length ≤ fuel := by
        rw [List.length_drop]
        simp only [List.length_cons] at hl ⊢
        omega
      simp only [chunksGo] at hc
      rcases List.mem_cons.mp hc with rfl | hc2
      · constructor
        · have : 0 < ((a :: rest).take size).length := by
            rw [List.length_take]
            simp only [List.length_cons]
            omega
          exact List.ne_nil_of_length_pos this
        · rw [List.length_take]
          omega
      · exact ih _ hrec c hc2

/-- The chunk size `go` computes: `total_size / opt.chunks`. -/
def goChunkSize (totalSize k : Nat) : Nat := totalSize / k

/-- The chunking `go` performs on the pixel sequence: `none` models a panic
(`total_size / 0` for a zero chunk count, or `slice::chunks(0)` when the
computed chunk size is zero), which aborts the run. -/
def goChunks (pixels : List Pixel) (k : Nat) : Option (List (List Pixel)) :=
  if k = 0 then none
  else rustChunks pixels (goChunkSize pixels.length k)

/-- Every pixel `go` submits, in producer order (`send_chunk` iterates each
chunk in order); `none` when the run panicked before submitting anything. -/
def goSubmitted (pixels : List Pixel) (k : Nat) : Option (List Pixel) :=
  (goChunks pixels k).map (fun cs => cs.flatten)

/-- A concrete pixel sequence of length 10. -/
def tenPixels : List Pixel := (List.range 10).map (fun i => (⟨i, 0⟩, ⟨0, 0, 0⟩))

/-- C4 (counterexample): a 10-pixel sequence with configured chunk count
`k = 4` gives `chunk_size = 10 / 4 = 2` and `pixels.chunks(2)` yields 5
chunks — 5 producer tasks, not exactly `k = 4`. -/
theorem c4_chunks_counterexample :
    (goChunks tenPixels 4).map List.length = some 5 ∧ (5 : Nat) ≠ 4 :=
  ⟨rfl, by decide⟩

/-- C4 (amended): for `0 < k ≤ total`, the pixel sequence is split into
contiguous in-order chunks of size `⌊total/k⌋` (the final chunk shorter,
holding the remainder); one producer task is started per chunk, iterating
it in order; the number of chunks is `⌈total / ⌊total/k⌋⌉`, which is
exactly `k` when `k` divides the pixel count and strictly more than `k`
otherwise. -/
theorem c4_chunking_amended (pixels : List Pixel) (k : Nat)
    (hk : 0 < k) (hle : k ≤ pixels.length) :
    ∃ cs, goChunks pixels k = some cs ∧
      cs.flatten = pixels ∧
      (∀ c ∈ cs.dropLast, c.length = goChunkSize pixels.length k) ∧
      (∀ c ∈ cs, c ≠ [] ∧ c.length ≤ goChunkSize pixels.length k) ∧
      cs.length = (pixels.length + goChunkSize pixels.length k - 1)
          / goChunkSize pixels.length k ∧
      (k ∣ pixels.length → cs.length = k) ∧
      (¬ k ∣ pixels.length → k < cs.length) := by
  have hq : 0 < goChunkSize pixels.length k := Nat.div_pos hle hk
  refine ⟨chunksGo (goChunkSize pixels.length k) pixels.length pixels,
    ?_, chunksGo_flatten hq pixels.length pixels le_rfl,
    chunksGo_dropLast_length hq pixels.length pixels le_rfl,
    chunksGo_mem_length hq pixels.length pixels le_rfl,
    chunksGo_length hq pixels.length pixels le_rfl, ?_, ?_⟩
  · rw [goChunks, if_neg (by omega), rustChunks, if_neg (by omega)]
  · intro hdvd
    rw [chunksGo_length hq pixels.length pixels le_rfl]
    obtain ⟨m, hm⟩ := hdvd
    have hqm : goChunkSize pixels.length k = m := by
      show pixels.length / k = m
      rw [hm]
      exact Nat.mul_div_cancel_left m hk
    rw [hqm] at hq ⊢
    rw [hm, Nat.mul_comm k m, Nat.add_sub_assoc (by omega) (m * k),
      Nat.mul_add_div hq, Nat.div_eq_of_lt (by omega)]
    omega
  · intro hnd
    rw [chunksGo_length hq pixels.length pixels le_rfl]
    have hub : k * goChunkSize pixels.length k ≤ pixels.length := by
      rw [Nat.mul_comm]
      exact Nat.div_mul_le_self pixels.length k
    have hne : k * goChunkSize pixels.length k ≠ pixels.length := by
      intro he
      exact hnd ⟨goChunkSize pixels.length k, he.symm⟩
    have hlt : k * goChunkSize pixels.length k < pixels.length :=
      lt_of_le_of_ne hub hne
    have key : k + 1 ≤ (pixels.length + goChunkSize pixels.length k - 1)
        / goChunkSize pixels.length k := by
      rw [Nat.le_div_iff_mul_le hq]
      have h1 : (k + 1) * goChunkSize pixels.length k
          = k * goChunkSize pixels.length k + goChunkSize pixels.length k := by ring
      rw [h1]
      generalize k * goChunkSize pixels.length k = K at hlt ⊢
      omega
    exact Nat.lt_of_lt_of_le (Nat.lt_succ_self k) key

/-- Witness for C4's amended theorem: 10 pixels in 4 chunks of size 2. -/
theorem c4_chunking_amended_witness :
    ∃ cs, goChunks tenPixels 5 = some cs ∧
      cs.flatten = tenPixels ∧
      (∀ c ∈ cs.dropLast, c.length = goChunkSize tenPixels.length 5) ∧
      (∀ c ∈ cs, c ≠ [] ∧ c.length ≤ goChunkSize tenPixels.length 5) ∧
      cs.length = (tenPixels.length + goChunkSize tenPixels.length 5 - 1)
          / goChunkSize tenPixels.length 5 ∧
      (5 ∣ tenPixels.length → cs.length = 5) ∧
      (¬ 5 ∣ tenPixels.length → 5 < cs.length) :=
  c4_chunking_amended tenPixels 5 (by norm_num) (by norm_num [tenPixels])

/-- C10: when the total pixel count is strictly below the configured chunk
count `k`, the computed chunk size is `total / k = 0` and
`pixels.chunks(0)` panics, so the run aborts without submitting any pixel. -/
theorem c10_small_canvas_panics (pixels : List Pixel) (k : Nat)
    (h : pixels.length < k) :
    goChunkSize pixels.length k = 0 ∧ goChunks pixels k = none ∧
    goSubmitted pixels k = none := by
  have h1 : goChunkSize pixels.length k = 0 := Nat.div_eq_of_lt h
  have h2 : goChunks pixels k = none := by
    rw [goChunks, if_neg (by omega), h1]
    rfl
  exact ⟨h1, h2, by rw [goSubmitted, h2]; rfl⟩

/-- A concrete pixel sequence of length 3. -/
def threePixels : List Pixel := [(⟨0, 0⟩, ⟨9, 9, 9⟩), (⟨1, 0⟩, ⟨9, 9, 9⟩), (⟨2, 0⟩, ⟨9, 9, 9⟩)]

/-- Witness for C10: 3 pixels with chunk count 4 abort before submitting. -/
theorem c10_small_canvas_panics_witness :
    goChunkSize threePixels.length 4 = 0 ∧ goChunks threePixels 4 = none ∧
    goSubmitted threePixels 4 = none :=
  c10_small_canvas_panics threePixels 4 (by norm_num [threePixels])

/-! ## Bounded Concurrent Single-Socket strategy (spec §4.4)

Modelled from the spec: this strategy appears nowhere in src/ (lib.rs and
main.rs implement only the pooled fan-out), so it is embedded from the
spec's words as a transition system: one Connection behind a mutual
exclusion lock, with at most `J` logical send operations admitted as
in flight (awaiting or holding the lock) at any instant.
-/

/-- Modelled from the spec: the instantaneous state of the Bounded
Concurrent strategy — how many admitted logical send operations are
awaiting the lock, and how many hold it. -/
structure BoundedState where
  awaiting : Nat
  holding : Nat
deriving DecidableEq, Repr

/-- Modelled from the spec: one step of the Bounded Concurrent strategy
with concurrency cap `J`. The Painter admits a new in-flight send only
below the cap; a waiter acquires the free lock; the holder finishes its
`Connection.send` and releases. -/
inductive BoundedStep (J : Nat) : BoundedState → BoundedState → Prop where
  | started (s : BoundedState) (h : s.awaiting + s.holding < J) :
      BoundedStep J s ⟨s.awaiting + 1, s.holding⟩
  | acquire (s : BoundedState) (hw : 0 < s.awaiting) (hh : s.holding = 0) :
      BoundedStep J s ⟨s.awaiting - 1, 1⟩
  | finish (s : BoundedState) (hh : s.holding = 1) :
      BoundedStep J s ⟨s.awaiting, 0⟩

/-- States reachable from the idle strategy. -/
def boundedReachable (J : Nat) (s : BoundedState) : Prop :=
  Relation.ReflTransGen (BoundedStep J) ⟨0, 0⟩ s

/-- Modelled from the spec: the default concurrency cap `J`. -/
def defaultConcurrencyCap : Nat := 256

/-- C8: in the Bounded Concurrent Single-Socket strategy (modelled from the
spec; absent from src/) with cap `J`, every reachable state has at most `J`
logical send operations simultaneously awaiting or holding the lock and at
most one holder; the default cap is 256. -/
theorem c8_bounded_concurrency_cap (J : Nat) (s : BoundedState)
    (hs : boundedReachable J s) :
    s.awaiting + s.holding ≤ J ∧ s.holding ≤ 1 ∧ defaultConcurrencyCap = 256 := by
  induction hs with
  | refl => exact ⟨by simp, by simp, rfl⟩
  | tail hab hbc ih =>
    refine ⟨?_, ?_, rfl⟩ <;> cases hbc <;> simp at ih ⊢ <;> omega

/-- Witness for C8: with cap `J = 1`, the state after admitting one send is
reachable and respects the cap. -/
theorem c8_bounded_concurrency_cap_witness :
    1 + 0 ≤ 1 ∧ (0 : Nat) ≤ 1 ∧ defaultConcurrencyCap = 256 :=
  c8_bounded_concurrency_cap 1 ⟨1, 0⟩
    (Relation.ReflTransGen.single (BoundedStep.started ⟨0, 0⟩ (by norm_num)))

end Blamejules
